import Mathlib

/-!
Verification development for `ngspyce/electronics_value_parser.py`.

The module under study exposes one pure function, `value_parser`, which turns
electronics value labels such as "4700", "3k3", "4.7kΩ" into a magnitude and
an optional unit name.  We embed the module shallowly:

* Python strings become `List Char` (`Str`), indexed by code point exactly as
  Python indexes `str`.
* Python `float` values are modelled exactly: a rational number for finite
  values (the decimal literal's exact value; the reference implementation
  performs a handful of power-of-ten multiplications, so the magnitude
  identities proved below hold for the floating-point program up to ordinary
  floating-point rounding), plus the signed infinities and NaN that `float()`
  also produces, for inputs spelling "inf"/"infinity"/"nan".
* The three lookup tables become association lists in Python 3.7+ dict
  insertion order, which is the order the `for` loops iterate them in.  Every
  multiplier in the tables is a power of ten, stored here as its exponent and
  interpreted by `pow10`.
* Exceptions become an error result: `ValueError` raised by `float()`, and
  `IndexError` raised by `value[-1]` on an empty string.

The parse is split in two layers.  `valueParserT` performs all the string
analysis of `value_parser` and returns the tokenized outcome (`TResult`):
the float literal's sign, digits and exponent, the power-of-ten multiplier
picked by the prefix/infix stages, and the unit.  `interp` then evaluates the
tokens to the exact numeric result, mirroring `float(value) * mul`.
`valueParser` is their composition.  The split changes nothing about the
algorithm; it keeps the character-level analysis inside a decidable fragment.

`pyFloatTok` models the string acceptance of Python's builtin `float`
(optional surrounding whitespace, optional sign, digits with an optional
fractional part, an optional exponent, and the case-insensitive spellings of
infinity and NaN).  Underscore digit grouping, a rarely used Python 3.6
extension of the literal syntax, is not modelled; no input considered below
contains an underscore.
-/

/-- Characters of a Python string, in code-point order. -/
abbrev Str := List Char

/-- Tokenized successful result of Python `float()` on a string:
`num sign intDigits fracDigits exponent` for a finite literal (value
`±(intDigits.fracDigits) × 10^exponent`), or an infinity (`true` = negative),
or NaN. -/
inductive PyTok where
  | num : Bool → Str → Str → ℤ → PyTok
  | inf : Bool → PyTok
  | nan : PyTok
  deriving DecidableEq

/-- Value of Python `float()`: an exact rational for finite values, a signed
infinity (`true` = negative), or NaN. -/
inductive PyLit where
  | num : ℚ → PyLit
  | inf : Bool → PyLit
  | nan : PyLit
  deriving DecidableEq

/-- Exception kinds `value_parser` can raise: `ValueError` from `float()`, and
`IndexError` from evaluating `value[-1]` on an empty string. -/
inductive PyErr where
  | valueError : PyErr
  | indexError : PyErr
  deriving DecidableEq

/-- Outcome of `value_parser`: a `(magnitude, unit-or-None)` pair, or a raised
exception. -/
inductive PResult where
  | ok : PyLit → Option String → PResult
  | err : PyErr → PResult
  deriving DecidableEq

/-- Tokenized outcome of `value_parser`: `okF` is the fast path (the whole
input was a float literal, no multiplier, no unit); `ok tok e unit` carries
the float token of the remaining string, the exponent of the power-of-ten
multiplier, and the unit. -/
inductive TResult where
  | okF : PyTok → TResult
  | ok : PyTok → ℤ → Option String → TResult
  | err : PyErr → TResult
  deriving DecidableEq

/-- Exact power of ten. All multipliers in the lookup tables are powers of
ten, so the multiplications in the source are exact up to floating-point
rounding. -/
def pow10 : ℤ → ℚ
  | .ofNat n => (10 : ℚ) ^ n
  | .negSucc n => 1 / (10 : ℚ) ^ (n + 1)

/-- Base-10 value of a digit string (most significant digit first). -/
def digitsVal (ds : Str) : ℕ := ds.foldl (fun n c => 10 * n + (c.toNat - 48)) 0

/-- Leading-whitespace removal, as in Python `str.strip()` / `float()`. -/
def trimLeft (s : Str) : Str := s.dropWhile Char.isWhitespace

/-- Trailing-whitespace removal. -/
def trimRight (s : Str) : Str := (s.reverse.dropWhile Char.isWhitespace).reverse

/-- Python `str.strip()`: remove surrounding whitespace. -/
def trimWs (s : Str) : Str := trimRight (trimLeft s)

/-- Consume one optional leading sign character; returns (is-negative, rest). -/
def takeSign : Str → Bool × Str
  | [] => (false, [])
  | c :: s =>
    if c = '+' then (false, s)
    else if c = '-' then (true, s)
    else (false, c :: s)

/-- Lower-cased spelling "inf" accepted by `float()`. -/
def infChars : Str := ['i', 'n', 'f']

/-- Lower-cased spelling "infinity" accepted by `float()`. -/
def infinityChars : Str := ['i', 'n', 'f', 'i', 'n', 'i', 't', 'y']

/-- Lower-cased spelling "nan" accepted by `float()`. -/
def nanChars : Str := ['n', 'a', 'n']

/-- Fractional part of a float literal: given the text after the integer
digits, consume an optional `'.'` followed by digits.  Returns the fractional
digits and the remaining text (where the exponent, if any, starts). -/
def fracSplit : Str → Str × Str
  | [] => ([], [])
  | c :: t =>
    if c = '.' then (t.takeWhile Char.isDigit, t.dropWhile Char.isDigit)
    else ([], c :: t)

/-- Exponent part of a float literal: empty text means exponent 0; otherwise
`e`/`E`, an optional sign and at least one digit, consuming all of the text. -/
def parseExp : Str → Option ℤ
  | [] => some 0
  | e :: t =>
    if e = 'e' ∨ e = 'E' then
      if (takeSign t).2.takeWhile Char.isDigit = [] ∨ (takeSign t).2.dropWhile Char.isDigit ≠ [] then
        none
      else
        some (if (takeSign t).1 then -(digitsVal ((takeSign t).2.takeWhile Char.isDigit) : ℤ)
          else (digitsVal ((takeSign t).2.takeWhile Char.isDigit) : ℤ))
    else none

/-- Body of `float()` after whitespace and sign removal: the infinity and NaN
spellings (case-insensitive), or digits, an optional fraction and an optional
exponent, with at least one digit overall and nothing left over. -/
def pyTokCore (neg : Bool) (u : Str) : Option PyTok :=
  if u.map Char.toLower = infChars ∨ u.map Char.toLower = infinityChars then
    some (.inf neg)
  else if u.map Char.toLower = nanChars then
    some .nan
  else if u.takeWhile Char.isDigit = [] ∧ (fracSplit (u.dropWhile Char.isDigit)).1 = [] then
    none
  else
    match parseExp (fracSplit (u.dropWhile Char.isDigit)).2 with
    | none => none
    | some e => some (.num neg (u.takeWhile Char.isDigit) (fracSplit (u.dropWhile Char.isDigit)).1 e)

/-- Python `float(s)` on a string, tokenized: `some` of the token, or `none`
when it raises `ValueError`. -/
def pyFloatTok (s : Str) : Option PyTok :=
  pyTokCore (takeSign (trimWs s)).1 (takeSign (trimWs s)).2

/-- Negate when the sign consumed by `takeSign` was a minus. -/
def applySign (neg : Bool) (q : ℚ) : ℚ := if neg then -q else q

/-- Numeric value of a float token. -/
def tokVal : PyTok → PyLit
  | .num neg ds1 ds2 e =>
    .num (applySign neg
      ((digitsVal ds1 + (digitsVal ds2 : ℚ) / pow10 (ds2.length : ℤ)) * pow10 e))
  | .inf b => .inf b
  | .nan => .nan

/-- Python `float(s)` on a string: `some` of the value, or `none` when it
raises `ValueError`. -/
def pyFloat (s : Str) : Option PyLit := (pyFloatTok s).map tokVal

/-- GREEK SMALL LETTER MU (U+03BC), a micro alias in `prefixes`. -/
def muSmall : Char := Char.ofNat 0x3BC

/-- MICRO SIGN (U+00B5), a micro alias in `prefixes`. -/
def microSign : Char := Char.ofNat 0xB5

/-- OHM SIGN (U+2126), an ohm spelling in `units`. -/
def ohmSign : Char := Char.ofNat 0x2126

/-- GREEK CAPITAL LETTER OMEGA (U+03A9), an ohm spelling in `units`. -/
def capOmega : Char := Char.ofNat 0x3A9

/-- The `prefixes` dict of the source, in insertion order; each multiplier
`1e24 … 1e-24` is stored as its exponent of ten. -/
def prefixes : List (Str × ℤ) :=
  [ (['Y'], 24), (['Z'], 21), (['E'], 18), (['P'], 15),
    (['T'], 12), (['G'], 9), (['M'], 6),
    (['M', 'E', 'G'], 6), (['M', 'e', 'g'], 6),
    (['k'], 3), (['K'], 3),
    (['m'], -3), (['u'], -6), ([muSmall], -6), ([microSign], -6),
    (['n'], -9), (['p'], -12), (['f'], -15),
    (['a'], -18), (['z'], -21), (['y'], -24) ]

/-- The `infixes` dict of the source: `prefixes.copy()` updated with
`R ↦ 1 = 10^0`, so in iteration order all prefix keys come first and `R`
last. -/
def infixes : List (Str × ℤ) := prefixes ++ [(['R'], 0)]

/-- The `units` dict of the source, in insertion order. -/
def units : List (Str × String) :=
  [ (['R'], "ohm"), ([ohmSign], "ohm"), ([capOmega], "ohm"),
    (['o', 'h', 'm'], "ohm"), (['F'], "farad"), (['H'], "henry"),
    (['V'], "volt"), (['A'], "ampere"), (['W'], "watt"),
    (['H', 'z'], "hertz"), (['C'], "coulomb"), (['S'], "siemen") ]

/-- The `for test_unit in units` loop: the first table entry whose symbol is a
suffix of `v` yields its canonical name and `v[:-len(sym)].strip()`. -/
def findUnit : List (Str × String) → Str → Option (String × Str)
  | [], _ => none
  | (sym, name) :: rest, v =>
    if sym <:+ v then some (name, trimWs (v.take (v.length - sym.length)))
    else findUnit rest v

/-- Unit-stripping stage: scanned over the whole `units` table; on a miss the
`for`/`else` sets the unit to `None` and leaves the string unchanged. -/
def stripUnit (v : Str) : Option String × Str :=
  match findUnit units v with
  | some (name, rest) => (some name, rest)
  | none => (none, v)

/-- Dict lookup by key equality (`prefixes[value[-1]]`); key order is
irrelevant because dict keys are unique. -/
def lookupTab : List (Str × ℤ) → Str → Option ℤ
  | [], _ => none
  | (sym, m) :: rest, k => if sym = k then some m else lookupTab rest k

/-- Split at the leftmost occurrence of `sep`: `some (before, after)` when
`sep` occurs in the string, `none` otherwise. This is the first step of
Python's `str.split(sep)`. -/
def breakOn (sep : Str) : Str → Option (Str × Str)
  | [] => if sep = [] then some ([], []) else none
  | c :: v =>
    if sep.isPrefixOf (c :: v) then some ([], (c :: v).drop sep.length)
    else
      match breakOn sep v with
      | some (l, r) => some (c :: l, r)
      | none => none

/-- Second field of Python's `str.split(sep)` given the text after the first
occurrence: the segment up to the next (non-overlapping) occurrence of `sep`,
or all of it when `sep` does not occur again. -/
def partsOne (sep r : Str) : Str :=
  match breakOn sep r with
  | some (l2, _) => l2
  | none => r

/-- The synthesized literal `parts[0] + '.' + parts[1]` of the infix stage. -/
def pySplit2 (sep v : Str) : Str :=
  match breakOn sep v with
  | some (l, r) => l ++ '.' :: partsOne sep r
  | none => v

/-- The `for test_inf in infixes` loop: first table entry (in insertion order)
whose symbol occurs somewhere in `v` (Python `test_inf in value`). -/
def findInfKey : List (Str × ℤ) → Str → Option (Str × ℤ)
  | [], _ => none
  | (sym, m) :: rest, v =>
    if (breakOn sym v).isSome then some (sym, m) else findInfKey rest v

/-- The `value_parser` function of the source on string input, tokenized:
all decisions and string surgery, with numeric evaluation deferred. -/
def valueParserT (value : Str) : TResult :=
  match pyFloatTok value with
  | some t => .okF t
  | none =>
    let p := stripUnit value
    match p.2.getLast? with
    | none => .err .indexError
    | some c =>
      match lookupTab prefixes [c] with
      | some e =>
        match pyFloatTok p.2.dropLast with
        | some t => .ok t e p.1
        | none => .err .valueError
      | none =>
        match findInfKey infixes p.2 with
        | some (sym, e) =>
          match pyFloatTok (pySplit2 sym p.2) with
          | some t => .ok t e p.1
          | none => .err .valueError
        | none =>
          match pyFloatTok p.2 with
          | some t => .ok t 0 p.1
          | none => .err .valueError

/-- Multiplication `float(value) * mul` lifted to `PyLit`, for the power-of-ten
multiplier `10^e`.  IEEE multiplication by a positive finite number keeps
infinities (with their sign) and NaN, as modelled here. -/
def PyLit.scaleE : PyLit → ℤ → PyLit
  | .num q, e => .num (q * pow10 e)
  | .inf b, _ => .inf b
  | .nan, _ => .nan

/-- Numeric evaluation of the tokenized outcome: the fast path returns
`float(value)` itself; the other successes return `float(value) * mul`. -/
def interp : TResult → PResult
  | .okF t => .ok (tokVal t) none
  | .ok t e u => .ok ((tokVal t).scaleE e) u
  | .err e => .err e

/-- The `value_parser` function of the source, on string input. -/
def valueParser (value : Str) : PResult := interp (valueParserT value)

/-- Argument of `value_parser`: a string, or a value that is already numeric
(int/float), on which `float(value)` always succeeds. -/
inductive PyInput where
  | ofStr : Str → PyInput
  | ofNum : PyLit → PyInput

/-- The `value_parser` function on either input kind: for an already-numeric
argument `float(value)` succeeds immediately and the unit is `None`. -/
def valueParserAny : PyInput → PResult
  | .ofNum f => .ok f none
  | .ofStr s => valueParser s

/-- Characters of a Lean string literal, for writing concrete inputs. -/
def chars (s : String) : Str := s.toList

example : pyFloatTok (chars "3e3") = some (.num false ['3'] [] 3) := by decide
example : pyFloatTok (chars " -4.25 ") = some (.num true ['4'] ['2', '5'] 0) := by decide
example : pyFloatTok (chars "Inf") = some (.inf false) := by decide
example : pyFloatTok (chars "3k3") = none := by decide
example : valueParserT (chars "4700") = .okF (.num false (chars "4700") [] 0) := by decide
example : valueParserT (chars "3k3") = .ok (.num false ['3'] ['3'] 0) 3 none := by decide
example : valueParserT (chars "2M2") = .ok (.num false ['2'] ['2'] 0) 6 none := by decide
example : valueParserT (chars "4n7") = .ok (.num false ['4'] ['7'] 0) (-9) none := by decide
example : valueParserT (chars "3R3") = .ok (.num false ['3'] ['3'] 0) 0 none := by decide
example : valueParserT (chars "10mA") = .ok (.num false (chars "10") [] 0) (-3) (some "ampere") := by decide
example : valueParserT (chars "10 ohm") = .ok (.num false (chars "10") [] 0) 0 (some "ohm") := by decide
example : valueParserT (chars "10   A") = .ok (.num false (chars "10") [] 0) 0 (some "ampere") := by decide
example : valueParserT (chars "3kohm") = .ok (.num false ['3'] [] 0) 3 (some "ohm") := by decide
example : valueParserT ('3' :: ' ' :: 'k' :: [capOmega]) = .ok (.num false ['3'] [] 0) 3 (some "ohm") := by decide
example : valueParserT (chars "100R") = .ok (.num false (chars "100") [] 0) 0 (some "ohm") := by decide
example : valueParserT (chars "4.7kV") = .ok (.num false ['4'] ['7'] 0) 3 (some "volt") := by decide
example : valueParserT (chars "245.894 mH") =
    .ok (.num false (chars "245") (chars "894") 0) (-3) (some "henry") := by decide
example : valueParserT (chars "10 u") = .ok (.num false (chars "10") [] 0) (-6) none := by decide
example : valueParserT ('1' :: '0' :: [muSmall]) = .ok (.num false (chars "10") [] 0) (-6) none := by decide
example : valueParserT [] = .err .indexError := by decide
example : valueParserT ('k' :: [capOmega]) = .err .valueError := by decide

example : valueParser (chars "3k3") = .ok (.num 3300) none := by
  rw [valueParser, show valueParserT (chars "3k3") = .ok (.num false ['3'] ['3'] 0) 3 none from by decide]
  rw [interp, tokVal, PyLit.scaleE]
  norm_num [applySign, pow10, show digitsVal ['3'] = 3 from by decide]

/-- C1: the textual forms "4700", "4.7k", "4k7" parse to magnitude 4700 with
no unit, and "4700R" parses to magnitude 4700 with unit "ohm"; all four
magnitudes are numerically equal. -/
theorem claim1_equivalent_forms :
    valueParser (chars "4700") = .ok (.num 4700) none ∧
    valueParser (chars "4.7k") = .ok (.num 4700) none ∧
    valueParser (chars "4k7") = .ok (.num 4700) none ∧
    valueParser (chars "4700R") = .ok (.num 4700) (some "ohm") := by
  refine ⟨?_, ?_, ?_, ?_⟩
  · rw [valueParser,
      show valueParserT (chars "4700") = .okF (.num false (chars "4700") [] 0) from by decide]
    rw [interp, tokVal]
    norm_num [applySign, pow10, show digitsVal (chars "4700") = 4700 from by decide,
      show digitsVal ([] : Str) = 0 from rfl]
  · rw [valueParser,
      show valueParserT (chars "4.7k") = .ok (.num false ['4'] ['7'] 0) 3 none from by decide]
    rw [interp, tokVal, PyLit.scaleE]
    norm_num [applySign, pow10, show digitsVal ['4'] = 4 from by decide,
      show digitsVal ['7'] = 7 from by decide]
  · rw [valueParser,
      show valueParserT (chars "4k7") = .ok (.num false ['4'] ['7'] 0) 3 none from by decide]
    rw [interp, tokVal, PyLit.scaleE]
    norm_num [applySign, pow10, show digitsVal ['4'] = 4 from by decide,
      show digitsVal ['7'] = 7 from by decide]
  · rw [valueParser,
      show valueParserT (chars "4700R") = .ok (.num false (chars "4700") [] 0) 0 (some "ohm")
        from by decide]
    rw [interp, tokVal, PyLit.scaleE]
    norm_num [applySign, pow10, show digitsVal (chars "4700") = 4700 from by decide,
      show digitsVal ([] : Str) = 0 from rfl]

/-- C7: "3R3" parses to exactly (3.3, None): the infix R acts as a decimal
point with multiplier 1 and no separate unit is reported; in particular the
result is not (3.3, "ohm"). -/
theorem claim7_bare_infix_R :
    valueParser (chars "3R3") = .ok (.num (33 / 10)) none ∧
    valueParser (chars "3R3") ≠ .ok (.num (33 / 10)) (some "ohm") := by
  have h : valueParser (chars "3R3") = .ok (.num (33 / 10)) none := by
    rw [valueParser,
      show valueParserT (chars "3R3") = .ok (.num false ['3'] ['3'] 0) 0 none from by decide]
    rw [interp, tokVal, PyLit.scaleE]
    norm_num [applySign, pow10, show digitsVal ['3'] = 3 from by decide]
  exact ⟨h, by rw [h]; simp⟩

/-- C9: on "1E3V" the unit-stripped remainder "1E3" feeds the infix search,
which matches the exa key 'E' and applies decimal substitution with
multiplier 1e18: the result is (1.3e18, "volt"), not (1000.0, "volt") and not
a failure. -/
theorem claim9_uppercase_E_infix :
    valueParser (chars "1E3V") = .ok (.num 1300000000000000000) (some "volt") ∧
    valueParser (chars "1E3V") ≠ .ok (.num 1000) (some "volt") ∧
    ∀ e : PyErr, valueParser (chars "1E3V") ≠ .err e := by
  have h : valueParser (chars "1E3V") = .ok (.num 1300000000000000000) (some "volt") := by
    rw [valueParser,
      show valueParserT (chars "1E3V") = .ok (.num false ['1'] ['3'] 0) 18 (some "volt")
        from by decide]
    rw [interp, tokVal, PyLit.scaleE]
    norm_num [applySign, pow10, show digitsVal ['1'] = 1 from by decide,
      show digitsVal ['3'] = 3 from by decide]
  refine ⟨h, by rw [h]; simp, fun e => by rw [h]; simp⟩

/-- C6 counterexample: unit matching is not performed on the whitespace-trimmed
input: "10 A " (trailing blank) raises ValueError, while its trimmed form
"10 A" parses to (10, "ampere"). -/
theorem claim6_whitespace_counterexample :
    valueParser (chars "10 A ") = .err .valueError ∧
    valueParser (trimWs (chars "10 A ")) = .ok (.num 10) (some "ampere") := by
  constructor
  · rw [valueParser, show valueParserT (chars "10 A ") = .err .valueError from by decide]
    rfl
  · rw [show trimWs (chars "10 A ") = chars "10 A" from by decide, valueParser,
      show valueParserT (chars "10 A") = .ok (.num false (chars "10") [] 0) 0 (some "ampere")
        from by decide]
    rw [interp, tokVal, PyLit.scaleE]
    norm_num [applySign, pow10, show digitsVal (chars "10") = 10 from by decide,
      show digitsVal ([] : Str) = 0 from rfl]

/-- C6 as amended: unit matching happens on the raw input, and the remainder
is trimmed only after the unit is removed, so whitespace between number and
unit is tolerated ("10 A" and "10A" both give (10.0, "ampere")) but trailing
whitespace after the unit symbol defeats unit matching ("10 A " raises
ValueError). -/
theorem claim6_whitespace :
    valueParser (chars "10 A") = .ok (.num 10) (some "ampere") ∧
    valueParser (chars "10A") = .ok (.num 10) (some "ampere") ∧
    valueParser (chars "10 A ") = .err .valueError := by
  refine ⟨?_, ?_, ?_⟩
  · rw [valueParser,
      show valueParserT (chars "10 A") = .ok (.num false (chars "10") [] 0) 0 (some "ampere")
        from by decide]
    rw [interp, tokVal, PyLit.scaleE]
    norm_num [applySign, pow10, show digitsVal (chars "10") = 10 from by decide,
      show digitsVal ([] : Str) = 0 from rfl]
  · rw [valueParser,
      show valueParserT (chars "10A") = .ok (.num false (chars "10") [] 0) 0 (some "ampere")
        from by decide]
    rw [interp, tokVal, PyLit.scaleE]
    norm_num [applySign, pow10, show digitsVal (chars "10") = 10 from by decide,
      show digitsVal ([] : Str) = 0 from rfl]
  · rw [valueParser, show valueParserT (chars "10 A ") = .err .valueError from by decide]
    rfl

/-- C2 counterexample: the empty string raises IndexError (from `value[-1]`),
not the MalformedLiteral ValueError kind; and the digit-free string "inf" does
not fail at all but returns positive infinity. -/
theorem claim2_error_kind_counterexample :
    valueParser [] = .err .indexError ∧
    valueParser [] ≠ .err .valueError ∧
    valueParser (chars "inf") = .ok (.inf false) none := by
  have h1 : valueParser [] = .err .indexError := by
    rw [valueParser, show valueParserT [] = .err .indexError from by decide]
    rfl
  have h3 : valueParser (chars "inf") = .ok (.inf false) none := by
    rw [valueParser, show valueParserT (chars "inf") = .okF (.inf false) from by decide]
    rfl
  exact ⟨h1, by rw [h1]; simp, h3⟩

/-- C4 counterexample: on "1k2k3" (its own remainder after unit removal) the
code returns 1200 = float("1.2") × 1000, splitting between the first and
second 'k', although the literal "1.2k3" synthesized from "everything after
the first occurrence" is not parseable, so under the claim this input could
not produce a result. -/
theorem claim4_split_counterexample :
    valueParser (chars "1k2k3") = .ok (.num 1200) none ∧
    pyFloat (chars "1" ++ '.' :: chars "2k3") = none := by
  constructor
  · rw [valueParser,
      show valueParserT (chars "1k2k3") = .ok (.num false ['1'] ['2'] 0) 3 none from by decide]
    rw [interp, tokVal, PyLit.scaleE]
    norm_num [applySign, pow10, show digitsVal ['1'] = 1 from by decide,
      show digitsVal ['2'] = 2 from by decide]
  · rw [pyFloat, show pyFloatTok (chars "1" ++ '.' :: chars "2k3") = none from by decide]
    rfl

/-- C5 counterexample: the multi-character alias MEG never acts as a trailing
SI prefix: "3MEG" raises ValueError (only the last character 'G' is consulted,
and the remaining "3ME" is not numeric) instead of yielding 3e6. -/
theorem claim5_meg_counterexample :
    valueParser (chars "3MEG") = .err .valueError ∧
    valueParser (chars "3MEG") ≠ .ok (.num 3000000) none := by
  have h : valueParser (chars "3MEG") = .err .valueError := by
    rw [valueParser, show valueParserT (chars "3MEG") = .err .valueError from by decide]
    rfl
  exact ⟨h, by rw [h]; simp⟩

/-- C8: inputs already interpretable as numeric literals take the fast path:
already-numeric arguments come back unchanged with no unit, any string
accepted by `float()` yields exactly that value with no unit, and in
particular "3e3" and "9.83652e-05" parse to their literal values. -/
theorem claim8_fast_path :
    (∀ f, valueParserAny (.ofNum f) = .ok f none) ∧
    (∀ (v : Str) (f : PyLit), pyFloat v = some f → valueParser v = .ok f none) ∧
    valueParser (chars "3e3") = .ok (.num 3000) none ∧
    valueParser (chars "9.83652e-05") = .ok (.num (983652 / 10 ^ 10)) none := by
  refine ⟨fun f => rfl, ?_, ?_, ?_⟩
  · intro v f h
    rw [pyFloat] at h
    rcases Option.map_eq_some'.1 h with ⟨t, ht, rfl⟩
    rw [valueParser, valueParserT, ht]
    rfl
  · rw [valueParser,
      show valueParserT (chars "3e3") = .okF (.num false ['3'] [] 3) from by decide]
    rw [interp, tokVal]
    norm_num [applySign, pow10, show digitsVal ['3'] = 3 from by decide,
      show digitsVal ([] : Str) = 0 from rfl]
  · rw [valueParser,
      show valueParserT (chars "9.83652e-05") =
        .okF (.num false ['9'] (chars "83652") (-5)) from by decide]
    rw [interp, tokVal]
    rw [show pow10 (-5) = 1 / 10 ^ 5 from rfl,
      show pow10 ((List.length (chars "83652") : ℕ) : ℤ) = 10 ^ 5 from rfl]
    norm_num [applySign, show digitsVal ['9'] = 9 from by decide,
      show digitsVal (chars "83652") = 83652 from by decide]

/-- Witness for C8: the fast-path law applied at the literal "2.5". -/
theorem claim8_fast_path_witness :
    valueParser (chars "2.5") = .ok (.num (5 / 2)) none :=
  claim8_fast_path.2.1 (chars "2.5") (.num (5 / 2)) (by
    rw [pyFloat, show pyFloatTok (chars "2.5") = some (.num false ['2'] ['5'] 0) from by decide]
    rw [Option.map_some', tokVal]
    norm_num [applySign, pow10, show digitsVal ['2'] = 2 from by decide,
      show digitsVal ['5'] = 5 from by decide])

/-- Suffixes of the same list are totally ordered by the suffix relation. -/
theorem suffix_total {a b v : Str} (ha : a <:+ v) (hb : b <:+ v) : a <:+ b ∨ b <:+ a := by
  rcases List.prefix_or_prefix_of_prefix (List.reverse_prefix.2 ha) (List.reverse_prefix.2 hb)
    with h | h
  · exact Or.inl (List.reverse_prefix.1 h)
  · exact Or.inr (List.reverse_prefix.1 h)

/-- No symbol of the `units` table is a proper suffix of another. -/
theorem units_suffix_eq :
    ∀ p ∈ units, ∀ q ∈ units, (p : Str × String).1 <:+ q.1 → p.1 = q.1 := by decide

/-- Equal symbols of the `units` table carry equal names (keys are unique). -/
theorem units_key_fn :
    ∀ p ∈ units, ∀ q ∈ units, (p : Str × String).1 = q.1 → p = q := by decide

/-- At most one `units` entry matches any given string as a suffix. -/
theorem units_unique_match {v : Str} {p q : Str × String} (hp : p ∈ units) (hq : q ∈ units)
    (hsp : p.1 <:+ v) (hsq : q.1 <:+ v) : p = q := by
  rcases suffix_total hsp hsq with h | h
  · exact units_key_fn p hp q hq (units_suffix_eq p hp q hq h)
  · exact units_key_fn p hp q hq (units_suffix_eq q hq p hp h).symm

/-- The unit scan misses when no table symbol is a suffix. -/
theorem findUnit_eq_none {t : List (Str × String)} {v : Str}
    (h : ∀ p ∈ t, ¬ (p : Str × String).1 <:+ v) : findUnit t v = none := by
  induction t with
  | nil => rfl
  | cons p rest ih =>
    obtain ⟨s0, n0⟩ := p
    rw [findUnit, if_neg (h (s0, n0) (by simp))]
    exact ih fun q hq => h q (by simp [hq])

/-- When exactly one table entry matches as a suffix, the scan returns it, no
matter where it stands in the table. -/
theorem findUnit_eq_of_unique {t : List (Str × String)} {v sym : Str} {name : String}
    (hmem : (sym, name) ∈ t) (hsuf : sym <:+ v)
    (huniq : ∀ p ∈ t, (p : Str × String).1 <:+ v → p = (sym, name)) :
    findUnit t v = some (name, trimWs (v.take (v.length - sym.length))) := by
  induction t with
  | nil => cases hmem
  | cons p rest ih =>
    obtain ⟨s0, n0⟩ := p
    by_cases h0 : s0 <:+ v
    · have he : (s0, n0) = (sym, name) := huniq (s0, n0) (by simp) h0
      obtain ⟨rfl, rfl⟩ := Prod.mk.injEq .. ▸ he
      rw [findUnit, if_pos h0]
    · rw [findUnit, if_neg h0]
      have hmem' : (sym, name) ∈ rest := by
        rcases List.mem_cons.1 hmem with he | hmem'
        · cases h0 (by rw [show s0 = sym from congrArg Prod.fst he.symm]; exact hsuf)
        · exact hmem'
      exact ih hmem' fun q hq hs => huniq q (by simp [hq]) hs

/-- C3: whenever a unit symbol matches as a suffix, the scan picks exactly the
matching symbol of greatest length (the match is in fact unique), whatever
the table order; in particular a trailing "Hz" is always resolved to "hertz",
never to the bare "H" (henry). -/
theorem claim3_longest_unit_suffix :
    (∀ (v sym : Str) (name : String), (sym, name) ∈ units → sym <:+ v →
      findUnit units v = some (name, trimWs (v.take (v.length - sym.length))) ∧
      ∀ p ∈ units, (p : Str × String).1 <:+ v → p.1.length ≤ sym.length) ∧
    (∀ s : Str, findUnit units (s ++ ['H', 'z']) = some ("hertz", trimWs s)) := by
  have main : ∀ (v sym : Str) (name : String), (sym, name) ∈ units → sym <:+ v →
      findUnit units v = some (name, trimWs (v.take (v.length - sym.length))) ∧
      ∀ p ∈ units, (p : Str × String).1 <:+ v → p.1.length ≤ sym.length := by
    intro v sym name hmem hsuf
    have huniq : ∀ p ∈ units, (p : Str × String).1 <:+ v → p = (sym, name) := fun p hp hsp =>
      units_unique_match hp hmem hsp hsuf
    refine ⟨findUnit_eq_of_unique hmem hsuf huniq, fun p hp hsp => ?_⟩
    rw [huniq p hp hsp]
  refine ⟨main, fun s => ?_⟩
  have h := (main (s ++ ['H', 'z']) ['H', 'z'] "hertz" (by decide)
    (List.suffix_append s ['H', 'z'])).1
  rw [h, List.length_append]
  norm_num [List.take_left]

/-- Witness for C3: on "100Hz" the scan returns "hertz" and strips both
characters, leaving "100". -/
theorem claim3_witness :
    findUnit units (chars "100Hz") = some ("hertz", chars "100") := by
  have h := (claim3_longest_unit_suffix.1 (chars "100Hz") ['H', 'z'] "hertz"
    (by decide) (by decide)).1
  rw [h]; decide

/-- C10: no `units` symbol is a proper suffix of another; hence at most one
entry can match any input as a suffix, and the unit scan's outcome is the
same for every iteration order of the table. -/
theorem claim10_unit_table_unambiguous :
    (∀ p ∈ units, ∀ q ∈ units, (p : Str × String).1 <:+ q.1 → p.1 = q.1) ∧
    (∀ (v : Str), ∀ p ∈ units, ∀ q ∈ units,
      (p : Str × String).1 <:+ v → (q : Str × String).1 <:+ v → p = q) ∧
    (∀ t : List (Str × String), t.Perm units → ∀ v, findUnit t v = findUnit units v) := by
  refine ⟨units_suffix_eq, fun v p hp q hq hsp hsq => units_unique_match hp hq hsp hsq, ?_⟩
  intro t hperm v
  by_cases h : ∃ p ∈ units, (p : Str × String).1 <:+ v
  · obtain ⟨⟨sym, name⟩, hmem, hsuf⟩ := h
    have huniq : ∀ p ∈ units, (p : Str × String).1 <:+ v → p = (sym, name) := fun p hp hs =>
      units_unique_match hp hmem hs hsuf
    rw [findUnit_eq_of_unique (hperm.mem_iff.2 hmem) hsuf
        (fun p hp hs => huniq p (hperm.mem_iff.1 hp) hs),
      findUnit_eq_of_unique hmem hsuf huniq]
  · push_neg at h
    rw [findUnit_eq_none fun p hp => h p (hperm.mem_iff.1 hp),
      findUnit_eq_none fun p hp => h p hp]

/-- Witness for C10: scanning the reversed table gives the same outcome on
"4.7kV". -/
theorem claim10_witness :
    findUnit units.reverse (chars "4.7kV") = findUnit units (chars "4.7kV") :=
  claim10_unit_table_unambiguous.2.2 units.reverse (List.reverse_perm units) (chars "4.7kV")

/-- A successful `breakOn` is a decomposition at the leftmost occurrence of
the separator. -/
theorem breakOn_eq_some {sep v l r : Str} (h : breakOn sep v = some (l, r)) :
    v = l ++ sep ++ r ∧ ∀ i, sep <+: v.drop i → l.length ≤ i := by
  induction v generalizing l r with
  | nil =>
    rw [breakOn] at h
    split at h
    · rename_i hsep
      obtain ⟨rfl, rfl⟩ := Prod.mk.injEq .. ▸ (Option.some.injEq .. ▸ h)
      subst hsep
      exact ⟨rfl, fun i _ => by simp⟩
    · cases h
  | cons c v ih =>
    rw [breakOn] at h
    split at h
    · rename_i hpre
      obtain ⟨rfl, rfl⟩ := Prod.mk.injEq .. ▸ (Option.some.injEq .. ▸ h)
      have hp : sep <+: c :: v := List.isPrefixOf_iff_prefix.1 hpre
      obtain ⟨t, ht⟩ := hp
      constructor
      · rw [List.nil_append, ← ht, List.drop_left]
      · intro i _
        simp
    · rename_i hpre
      have hnp : ¬ sep <+: c :: v := fun hp => hpre (List.isPrefixOf_iff_prefix.2 hp)
      cases hbv : breakOn sep v with
      | none => rw [hbv] at h; cases h
      | some p =>
        obtain ⟨l', r'⟩ := p
        rw [hbv] at h
        obtain ⟨rfl, rfl⟩ := Prod.mk.injEq .. ▸ (Option.some.injEq .. ▸ h)
        obtain ⟨hv, hmin⟩ := ih hbv
        constructor
        · simp [hv]
        · intro i hp
          cases i with
          | zero => exact absurd hp hnp
          | succ j => simpa using Nat.succ_le_succ (hmin j (by simpa using hp))

/-- C4 as amended: in the infix stage the code splits at the leftmost
occurrence of the first matching key, but the right part of the synthesized
literal is only the segment between the first and the next occurrence of that
key — not everything after the first occurrence — and everything from the
second occurrence on is discarded. -/
theorem claim4_infix_stage :
    ∀ (w : Str) (uo : Option String) (v : Str) (c : Char) (sym : Str) (e : ℤ) (l r : Str),
      pyFloatTok w = none →
      stripUnit w = (uo, v) →
      v.getLast? = some c →
      lookupTab prefixes [c] = none →
      findInfKey infixes v = some (sym, e) →
      breakOn sym v = some (l, r) →
      (v = l ++ sym ++ r ∧ ∀ i, sym <+: v.drop i → l.length ≤ i) ∧
      (∀ l2 r2, breakOn sym r = some (l2, r2) → partsOne sym r = l2 ∧ r = l2 ++ sym ++ r2) ∧
      (breakOn sym r = none → partsOne sym r = r) ∧
      valueParser w =
        (match pyFloatTok (l ++ '.' :: partsOne sym r) with
          | some t => .ok ((tokVal t).scaleE e) uo
          | none => .err .valueError) := by
  intro w uo v c sym e l r hfast hstrip hlast hpre hinf hbrk
  refine ⟨breakOn_eq_some hbrk, ?_, ?_, ?_⟩
  · intro l2 r2 h2
    exact ⟨by rw [partsOne, h2], (breakOn_eq_some h2).1⟩
  · intro h2
    rw [partsOne, h2]
  · simp only [valueParser, valueParserT, hfast, hstrip, hlast, hpre, hinf]
    rw [show pySplit2 sym v = l ++ '.' :: partsOne sym r from by rw [pySplit2, hbrk]]
    cases hfin : pyFloatTok (l ++ '.' :: partsOne sym r) <;> simp [interp]

/-- Witness for C4: the infix stage applied at "3k3", where the remainder is
the input itself, the matching key is 'k' with multiplier 10^3, and the split
is ("3", "3"). -/
theorem claim4_witness :
    valueParser (chars "3k3") =
      (match pyFloatTok (['3'] ++ '.' :: partsOne ['k'] ['3']) with
        | some t => .ok ((tokVal t).scaleE 3) none
        | none => .err .valueError) :=
  (claim4_infix_stage (chars "3k3") none (chars "3k3") '3' ['k'] 3 ['3'] ['3']
    (by decide) (by decide) (by decide) (by decide) (by decide) (by decide)).2.2.2

/-- Left trimming only removes characters. -/
theorem trimLeft_subset (s : Str) : trimLeft s ⊆ s :=
  (List.dropWhile_sublist _).subset

/-- Right trimming only removes characters. -/
theorem trimRight_subset (s : Str) : trimRight s ⊆ s := by
  intro x hx
  rw [trimRight, List.mem_reverse] at hx
  exact List.mem_reverse.1 ((List.dropWhile_sublist _).subset hx)

/-- Stripping only removes characters. -/
theorem trimWs_subset (s : Str) : trimWs s ⊆ s := by
  intro x hx
  exact trimLeft_subset s (trimRight_subset (trimLeft s) hx)

/-- Sign consumption only removes characters. -/
theorem takeSign_snd_subset (s : Str) : (takeSign s).2 ⊆ s := by
  cases s with
  | nil => simp [takeSign]
  | cons c t =>
    rw [takeSign]
    split
    · exact fun x hx => List.mem_cons_of_mem _ hx
    · split
      · exact fun x hx => List.mem_cons_of_mem _ hx
      · exact fun x hx => hx

/-- The fractional digits come from the examined text. -/
theorem fracSplit_fst_subset (r : Str) : (fracSplit r).1 ⊆ r := by
  cases r with
  | nil => simp [fracSplit]
  | cons c t =>
    rw [fracSplit]
    split
    · exact fun x hx => List.mem_cons_of_mem _ ((List.takeWhile_sublist _).subset hx)
    · simp

/-- The fractional digits really are digits. -/
theorem fracSplit_fst_digit {r : Str} {x : Char} (hx : x ∈ (fracSplit r).1) :
    x.isDigit = true := by
  cases r with
  | nil => simp [fracSplit] at hx
  | cons c t =>
    rw [fracSplit] at hx
    split at hx
    · exact List.mem_takeWhile_imp hx
    · simp at hx

/-- A finite token out of the core parse means the body held a digit. -/
theorem pyTokCore_num_digit {neg ng : Bool} {u ds1 ds2 : Str} {e : ℤ}
    (h : pyTokCore neg u = some (.num ng ds1 ds2 e)) : ∃ c ∈ u, c.isDigit = true := by
  rw [pyTokCore] at h
  split at h
  · simp at h
  split at h
  · simp at h
  split at h
  · simp at h
  · rename_i hguard
    rcases not_and_or.1 hguard with h1 | h2
    · obtain ⟨d, hd⟩ := List.exists_mem_of_ne_nil _ h1
      exact ⟨d, (List.takeWhile_sublist _).subset hd, List.mem_takeWhile_imp hd⟩
    · obtain ⟨d, hd⟩ := List.exists_mem_of_ne_nil _ h2
      exact ⟨d, (List.dropWhile_sublist _).subset (fracSplit_fst_subset _ hd),
        fracSplit_fst_digit hd⟩

/-- A finite token out of `float()` means the string held a digit. -/
theorem pyFloatTok_num_digit {v : Str} {ng : Bool} {ds1 ds2 : Str} {e : ℤ}
    (h : pyFloatTok v = some (.num ng ds1 ds2 e)) : ∃ c ∈ v, c.isDigit = true := by
  obtain ⟨d, hd, hdig⟩ := pyTokCore_num_digit h
  exact ⟨d, trimWs_subset v (takeSign_snd_subset _ hd), hdig⟩

/-- Only a finite token evaluates to a finite value. -/
theorem tokVal_num_inv {t : PyTok} {q : ℚ} (h : tokVal t = .num q) :
    ∃ ng ds1 ds2 e, t = .num ng ds1 ds2 e := by
  cases t with
  | num ng ds1 ds2 e => exact ⟨ng, ds1, ds2, e, rfl⟩
  | inf b => simp [tokVal] at h
  | nan => simp [tokVal] at h

/-- Only a finite value scales to a finite value. -/
theorem scaleE_num_inv {f : PyLit} {e : ℤ} {q : ℚ} (h : f.scaleE e = .num q) :
    ∃ q2, f = .num q2 := by
  cases f with
  | num q2 => exact ⟨q2, rfl⟩
  | inf b => simp [PyLit.scaleE] at h
  | nan => simp [PyLit.scaleE] at h

/-- The remainder the unit scan leaves is made of the input's characters. -/
theorem findUnit_some_subset {t : List (Str × String)} {v rest : Str} {name : String}
    (h : findUnit t v = some (name, rest)) : rest ⊆ v := by
  induction t with
  | nil => cases h
  | cons p tl ih =>
    obtain ⟨s0, n0⟩ := p
    rw [findUnit] at h
    split at h
    · obtain ⟨rfl, rfl⟩ := Prod.mk.injEq .. ▸ (Option.some.injEq .. ▸ h)
      intro x hx
      exact List.take_subset _ _ (trimWs_subset _ hx)
    · exact ih h

/-- The unit-stripping stage only removes characters. -/
theorem stripUnit_snd_subset (v : Str) : (stripUnit v).2 ⊆ v := by
  cases hf : findUnit units v with
  | none => simp [stripUnit, hf]
  | some p =>
    obtain ⟨name, rest⟩ := p
    simp only [stripUnit, hf]
    exact findUnit_some_subset hf

/-- `parts[1]` is made of characters after the first occurrence. -/
theorem partsOne_subset (sep r : Str) : partsOne sep r ⊆ r := by
  cases hb : breakOn sep r with
  | none => simp [partsOne, hb]
  | some p =>
    obtain ⟨l2, r2⟩ := p
    have hd := (breakOn_eq_some hb).1
    simp only [partsOne, hb]
    intro x hx
    rw [hd]
    simp [hx]

/-- Every character of the synthesized literal is a character of the split
string or the inserted decimal point. -/
theorem pySplit2_mem {sep v : Str} {x : Char} (hx : x ∈ pySplit2 sep v) :
    x ∈ v ∨ x = '.' := by
  cases hb : breakOn sep v with
  | none =>
    simp only [pySplit2, hb] at hx
    exact Or.inl hx
  | some p =>
    obtain ⟨l, r⟩ := p
    have hd := (breakOn_eq_some hb).1
    simp only [pySplit2, hb] at hx
    rcases List.mem_append.1 hx with h1 | h2
    · exact Or.inl (by rw [hd]; simp [h1])
    · rcases List.mem_cons.1 h2 with rfl | h3
      · exact Or.inr rfl
      · exact Or.inl (by rw [hd]; simp [partsOne_subset sep r h3])

/-- A fast-path outcome inverts to a `float()` success on the whole input. -/
theorem valueParserT_okF_inv {v : Str} {t : PyTok} (h : valueParserT v = .okF t) :
    pyFloatTok v = some t := by
  rw [valueParserT] at h
  cases hf : pyFloatTok v with
  | some t2 =>
    rw [hf] at h
    cases h
    rfl
  | none =>
    rw [hf] at h
    exfalso
    cases hst : stripUnit v with
    | mk uo2 v2 =>
      simp only [hst] at h
      cases hlast : v2.getLast? with
      | none => simp only [hlast] at h; cases h
      | some c =>
        simp only [hlast] at h
        cases hlk : lookupTab prefixes [c] with
        | some e2 =>
          simp only [hlk] at h
          cases hdl : pyFloatTok v2.dropLast with
          | some t2 => simp only [hdl] at h; cases h
          | none => simp only [hdl] at h; cases h
        | none =>
          simp only [hlk] at h
          cases hik : findInfKey infixes v2 with
          | some p =>
            obtain ⟨sym, e2⟩ := p
            simp only [hik] at h
            cases hsp : pyFloatTok (pySplit2 sym v2) with
            | some t2 => simp only [hsp] at h; cases h
            | none => simp only [hsp] at h; cases h
          | none =>
            simp only [hik] at h
            cases hpl : pyFloatTok v2 with
            | some t2 => simp only [hpl] at h; cases h
            | none => simp only [hpl] at h; cases h

/-- A non-fast-path success inverts to a `float()` success on the string one
of the three magnitude branches examined. -/
theorem valueParserT_ok_inv {v : Str} {t : PyTok} {e : ℤ} {uo : Option String}
    (h : valueParserT v = .ok t e uo) :
    pyFloatTok ((stripUnit v).2.dropLast) = some t ∨
    (∃ sym, pyFloatTok (pySplit2 sym (stripUnit v).2) = some t) ∨
    pyFloatTok (stripUnit v).2 = some t := by
  rw [valueParserT] at h
  cases hf : pyFloatTok v with
  | some t2 => rw [hf] at h; cases h
  | none =>
    rw [hf] at h
    cases hst : stripUnit v with
    | mk uo2 v2 =>
      simp only [hst] at h
      cases hlast : v2.getLast? with
      | none => simp only [hlast] at h; cases h
      | some c =>
        simp only [hlast] at h
        cases hlk : lookupTab prefixes [c] with
        | some e2 =>
          simp only [hlk] at h
          cases hdl : pyFloatTok v2.dropLast with
          | some t2 =>
            simp only [hdl] at h
            cases h
            exact Or.inl rfl
          | none => simp only [hdl] at h; cases h
        | none =>
          simp only [hlk] at h
          cases hik : findInfKey infixes v2 with
          | some p =>
            obtain ⟨sym, e2⟩ := p
            simp only [hik] at h
            cases hsp : pyFloatTok (pySplit2 sym v2) with
            | some t2 =>
              simp only [hsp] at h
              cases h
              exact Or.inr (Or.inl ⟨sym, hsp⟩)
            | none => simp only [hsp] at h; cases h
          | none =>
            simp only [hik] at h
            cases hpl : pyFloatTok v2 with
            | some t2 =>
              simp only [hpl] at h
              cases h
              exact Or.inr (Or.inr rfl)
            | none => simp only [hpl] at h; cases h

/-- A finite parse result means the input held a digit. -/
theorem finite_ok_has_digit {v : Str} {q : ℚ} {u : Option String}
    (h : valueParser v = .ok (.num q) u) : ∃ c ∈ v, c.isDigit = true := by
  rw [valueParser] at h
  cases hT : valueParserT v with
  | okF t =>
    rw [hT, interp] at h
    injection h with h1 h2
    obtain ⟨ng, ds1, ds2, e, rfl⟩ := tokVal_num_inv h1
    exact pyFloatTok_num_digit (valueParserT_okF_inv hT)
  | ok t e uo =>
    rw [hT, interp] at h
    injection h with h1 h2
    obtain ⟨q2, hq2⟩ := scaleE_num_inv h1
    obtain ⟨ng, ds1, ds2, ex, rfl⟩ := tokVal_num_inv hq2
    rcases valueParserT_ok_inv hT with hsrc | ⟨sym, hsrc⟩ | hsrc
    · obtain ⟨d, hd, hdig⟩ := pyFloatTok_num_digit hsrc
      exact ⟨d, stripUnit_snd_subset v ((List.dropLast_sublist _).subset hd), hdig⟩
    · obtain ⟨d, hd, hdig⟩ := pyFloatTok_num_digit hsrc
      rcases pySplit2_mem hd with h2 | rfl
      · exact ⟨d, stripUnit_snd_subset v h2, hdig⟩
      · exact absurd hdig (by decide)
    · obtain ⟨d, hd, hdig⟩ := pyFloatTok_num_digit hsrc
      exact ⟨d, stripUnit_snd_subset v hd, hdig⟩
  | err er => rw [hT, interp] at h; cases h

/-- C2 as amended: an input with no digits never produces a finite magnitude,
but the failure mode is not one single error kind: "kΩ" fails with the
MalformedLiteral ValueError kind, the empty string fails with IndexError
(its remainder after unit stripping is empty, so `value[-1]` is out of
range), and digit-free inputs whose remaining numeric part spells an
infinity or NaN accepted by `float()` do not fail at all but return a
non-finite value — even through the prefix stage, as in "infk". -/
theorem claim2_no_digit_no_finite :
    (∀ v : Str, (∀ c ∈ v, c.isDigit = false) →
      ∀ (q : ℚ) (u : Option String), valueParser v ≠ .ok (.num q) u) ∧
    valueParser ('k' :: [capOmega]) = .err .valueError ∧
    valueParser [] = .err .indexError ∧
    valueParser (chars "infk") = .ok (.inf false) none := by
  refine ⟨?_, ?_, ?_, ?_⟩
  · intro v hnd q u h
    obtain ⟨d, hd, hdig⟩ := finite_ok_has_digit h
    rw [hnd d hd] at hdig
    cases hdig
  · rw [valueParser, show valueParserT ('k' :: [capOmega]) = .err .valueError from by decide]
    rfl
  · rw [valueParser, show valueParserT [] = .err .indexError from by decide]
    rfl
  · rw [valueParser,
      show valueParserT (chars "infk") = .ok (.inf false) 3 none from by decide]
    rfl

/-- Witness for C2: the digit-free string "xy" cannot parse to the finite
value 0 (it in fact raises ValueError). -/
theorem claim2_no_digit_witness :
    valueParser (chars "xy") ≠ .ok (.num 0) none :=
  claim2_no_digit_no_finite.1 (chars "xy") (by decide) 0 none

/-- Whitespace characters are not digits. -/
theorem ws_not_digit {x : Char} (h : x.isWhitespace = true) : x.isDigit = false := by
  simp only [Char.isWhitespace, Bool.or_eq_true, decide_eq_true_eq] at h
  rcases h with ((rfl | rfl) | rfl) | rfl <;> decide

/-- Lower-casing keeps digits digits (digits are not upper-case letters). -/
theorem digit_toLower {c : Char} (h : c.isDigit = true) : (Char.toLower c).isDigit = true := by
  rw [Char.toLower]
  split
  · rename_i hrange
    exfalso
    simp only [Char.isDigit, Bool.and_eq_true, decide_eq_true_eq] at h
    have h2 : c.val.toBitVec.toNat ≤ (57 : UInt32).toBitVec.toNat :=
      BitVec.le_def.1 (UInt32.le_def.1 h.2)
    have h3 : (65 : ℕ) ≤ c.toNat := hrange.1
    have h4 : c.toNat = c.val.toBitVec.toNat := rfl
    have h5 : (57 : UInt32).toBitVec.toNat = 57 := by decide
    omega
  · exact h

/-- A list holding a digit cannot lower-case to a digit-free constant. -/
theorem map_toLower_ne {l target : Str} {d : Char} (hd : d ∈ l) (hdd : d.isDigit = true)
    (htarget : ∀ x ∈ target, x.isDigit = false) : l.map Char.toLower ≠ target := by
  intro he
  have h1 : Char.toLower d ∈ target := he ▸ List.mem_map_of_mem Char.toLower hd
  have h2 := htarget _ h1
  rw [digit_toLower hdd] at h2
  cases h2

/-- Appending past a consumed sign. -/
theorem takeSign_append {t u m : Str} {neg : Bool} (h : takeSign t = (neg, u)) (hne : t ≠ []) :
    takeSign (t ++ m) = (neg, u ++ m) := by
  cases t with
  | nil => cases hne rfl
  | cons c t2 =>
    rw [takeSign] at h
    rw [List.cons_append, takeSign]
    by_cases h1 : c = '+'
    · rw [if_pos h1] at h ⊢
      obtain ⟨rfl, rfl⟩ := Prod.mk.injEq .. ▸ h
      rfl
    · rw [if_neg h1] at h ⊢
      by_cases h2 : c = '-'
      · rw [if_pos h2] at h ⊢
        obtain ⟨rfl, rfl⟩ := Prod.mk.injEq .. ▸ h
        rfl
      · rw [if_neg h2] at h ⊢
        obtain ⟨rfl, rfl⟩ := Prod.mk.injEq .. ▸ h
        rfl

/-- Left trimming distributes over an append when something non-blank stays. -/
theorem trimLeft_append {s m : Str} (h : trimLeft s ≠ []) :
    trimLeft (s ++ m) = trimLeft s ++ m := by
  induction s with
  | nil => cases h rfl
  | cons c t ih =>
    by_cases hws : c.isWhitespace
    · rw [List.cons_append, trimLeft, List.dropWhile_cons_of_pos hws]
      rw [trimLeft, List.dropWhile_cons_of_pos hws] at h ⊢
      exact ih h
    · rw [List.cons_append, trimLeft, List.dropWhile_cons_of_neg hws,
        trimLeft, List.dropWhile_cons_of_neg hws]
      simp

/-- Right trimming does nothing when the last character is not blank. -/
theorem trimRight_concat {s : Str} {c : Char} (hc : c.isWhitespace = false) :
    trimRight (s ++ [c]) = s ++ [c] := by
  rw [trimRight, List.reverse_append]
  simp only [List.reverse_cons, List.reverse_nil, List.nil_append, List.singleton_append,
    List.dropWhile_cons]
  rw [hc]
  simp

/-- Any list is its right trim followed by blanks. -/
theorem trimRight_decomp (s : Str) :
    ∃ w, s = trimRight s ++ w ∧ ∀ x ∈ w, x.isWhitespace = true := by
  refine ⟨(s.reverse.takeWhile Char.isWhitespace).reverse, ?_, ?_⟩
  · rw [trimRight, ← List.reverse_append, List.takeWhile_append_dropWhile, List.reverse_reverse]
  · intro x hx
    rw [List.mem_reverse] at hx
    exact List.mem_takeWhile_imp hx

/-- Appending a non-blank character to a string: the strip of the result is
the strip of the string, the string's trailing blanks, then the character. -/
theorem trimWs_concat {s : Str} {c : Char} (hs : trimLeft s ≠ []) (hc : c.isWhitespace = false) :
    ∃ w, trimWs (s ++ [c]) = (trimWs s ++ w) ++ [c] ∧ ∀ x ∈ w, x.isWhitespace = true := by
  obtain ⟨w, hw1, hw2⟩ := trimRight_decomp (trimLeft s)
  refine ⟨w, ?_, hw2⟩
  have h1 : trimWs (s ++ [c]) = trimRight (trimLeft (s ++ [c])) := rfl
  rw [h1, trimLeft_append hs, hw1]
  exact trimRight_concat hc

/-- `takeWhile` walks through a satisfying prefix. -/
theorem takeWhile_append_all {p : Char → Bool} {a b : Str} (h : ∀ x ∈ a, p x = true) :
    (a ++ b).takeWhile p = a ++ b.takeWhile p := by
  induction a with
  | nil => simp
  | cons c t ih =>
    rw [List.cons_append, List.takeWhile_cons_of_pos (h c (by simp)), List.cons_append,
      ih fun x hx => h x (by simp [hx])]

/-- `dropWhile` walks through a satisfying prefix. -/
theorem dropWhile_append_all {p : Char → Bool} {a b : Str} (h : ∀ x ∈ a, p x = true) :
    (a ++ b).dropWhile p = b.dropWhile p := by
  induction a with
  | nil => simp
  | cons c t ih =>
    rw [List.cons_append, List.dropWhile_cons_of_pos (h c (by simp))]
    exact ih fun x hx => h x (by simp [hx])

/-- The head of a `dropWhile` residue fails the predicate. -/
theorem dropWhile_head_false {p : Char → Bool} {l r : Str} {c : Char}
    (h : l.dropWhile p = c :: r) : p c = false := by
  have h2 := List.head?_dropWhile_not p l
  rw [h] at h2
  simpa using h2

/-- Blanks followed by a non-digit: the digit scan stops at once. -/
theorem concat_digit_tail {w : Str} {c : Char}
    (hw : ∀ x ∈ w, x.isWhitespace = true) (hcd : c.isDigit = false) :
    (w ++ [c]).takeWhile Char.isDigit = [] ∧ (w ++ [c]).dropWhile Char.isDigit = w ++ [c] := by
  cases w with
  | nil => simp [List.takeWhile_cons, List.dropWhile_cons, hcd]
  | cons w0 w2 =>
    have h0 : w0.isDigit = false := ws_not_digit (hw w0 (by simp))
    simp [List.takeWhile_cons, List.dropWhile_cons, h0]

/-- A digit-scan residue, blanks and a final non-digit: the scan stops at
once. -/
theorem digit_scan_concat {r w : Str} {c : Char}
    (hr : ∀ x rest, r = x :: rest → x.isDigit = false)
    (hw : ∀ x ∈ w, x.isWhitespace = true) (hcd : c.isDigit = false) :
    (r ++ (w ++ [c])).takeWhile Char.isDigit = [] ∧
    (r ++ (w ++ [c])).dropWhile Char.isDigit = r ++ (w ++ [c]) := by
  cases r with
  | nil => simpa using concat_digit_tail hw hcd
  | cons h1 t1 =>
    have h1d := hr h1 t1 rfl
    simp [List.takeWhile_cons, List.dropWhile_cons, h1d]

/-- Appending blanks and a non-digit non-dot character past a digit-scan
residue leaves the fractional split's digits unchanged and extends its
remainder. -/
theorem fracSplit_concat {r w : Str} {c : Char}
    (hr : ∀ x rest, r = x :: rest → x.isDigit = false)
    (hw : ∀ x ∈ w, x.isWhitespace = true)
    (hcd : c.isDigit = false) (hcdot : c ≠ '.') :
    fracSplit (r ++ (w ++ [c])) = ((fracSplit r).1, (fracSplit r).2 ++ (w ++ [c])) := by
  cases r with
  | nil =>
    rw [List.nil_append]
    cases w with
    | nil =>
      rw [List.nil_append]
      show fracSplit [c] = ([], [c])
      rw [fracSplit, if_neg hcdot]
    | cons w0 w2 =>
      have h0 : w0 ≠ '.' := by
        intro he
        have hws := hw w0 (by simp)
        rw [he] at hws
        exact absurd hws (by decide)
      rw [List.cons_append]
      show fracSplit (w0 :: (w2 ++ [c])) = ([], w0 :: (w2 ++ [c]))
      rw [fracSplit, if_neg h0]
  | cons h1 t1 =>
    by_cases hdot : h1 = '.'
    · subst hdot
      rw [List.cons_append, fracSplit, if_pos rfl, fracSplit, if_pos rfl]
      have ht1 : t1 ++ (w ++ [c]) =
          t1.takeWhile Char.isDigit ++ (t1.dropWhile Char.isDigit ++ (w ++ [c])) := by
        conv_rhs => rw [← List.append_assoc, List.takeWhile_append_dropWhile]
      have hall : ∀ x ∈ t1.takeWhile Char.isDigit, Char.isDigit x = true :=
        fun x hx => List.mem_takeWhile_imp hx
      have hr2 : ∀ x rest, t1.dropWhile Char.isDigit = x :: rest → x.isDigit = false :=
        fun x rest hx => dropWhile_head_false hx
      rw [ht1, takeWhile_append_all hall, dropWhile_append_all hall,
        (digit_scan_concat hr2 hw hcd).1, (digit_scan_concat hr2 hw hcd).2, List.append_nil]
    · rw [List.cons_append, fracSplit, if_neg hdot, fracSplit, if_neg hdot]
      simp

/-- A parseable exponent followed by blanks and one more non-digit character
is rejected. -/
theorem parseExp_concat_none {r2 w : Str} {c : Char} {e : ℤ}
    (h : parseExp r2 = some e) (hw : ∀ x ∈ w, x.isWhitespace = true)
    (hcd : c.isDigit = false) :
    parseExp (r2 ++ (w ++ [c])) = none := by
  cases r2 with
  | nil =>
    rw [List.nil_append]
    cases w with
    | nil =>
      rw [List.nil_append, parseExp]
      by_cases hce : c = 'e' ∨ c = 'E'
      · have h0 : List.takeWhile Char.isDigit (takeSign ([] : Str)).2 = [] := rfl
        rw [if_pos hce, if_pos (Or.inl h0)]
      · rw [if_neg hce]
    | cons w0 w2 =>
      have hw0 : w0.isWhitespace = true := hw w0 (by simp)
      have he : ¬(w0 = 'e' ∨ w0 = 'E') := by
        rintro (rfl | rfl) <;> exact absurd hw0 (by decide)
      rw [List.cons_append, parseExp, if_neg he]
  | cons e1 t2 =>
    rw [parseExp] at h
    by_cases he1 : e1 = 'e' ∨ e1 = 'E'
    · rw [if_pos he1] at h
      split at h
      · cases h
      · rename_i hcond
        push_neg at hcond
        obtain ⟨hds3, hr3⟩ := hcond
        have ht2ne : t2 ≠ [] := by
          intro h0
          subst h0
          simp [takeSign] at hds3
        obtain ⟨sg, t3, hts⟩ : ∃ sg t3, takeSign t2 = (sg, t3) := ⟨_, _, rfl⟩
        rw [hts] at hds3 hr3
        have ht3 : t3 = t3.takeWhile Char.isDigit := by
          conv_lhs => rw [← List.takeWhile_append_dropWhile Char.isDigit t3]
          rw [hr3, List.append_nil]
        have hall3 : ∀ x ∈ t3, Char.isDigit x = true := fun x hx =>
          List.mem_takeWhile_imp (ht3 ▸ hx)
        have hne : (t3 ++ (w ++ [c])).dropWhile Char.isDigit ≠ [] := by
          rw [dropWhile_append_all hall3, (concat_digit_tail hw hcd).2]
          simp
        rw [List.cons_append, parseExp, if_pos he1, takeSign_append hts ht2ne,
          if_pos (Or.inr hne)]
    · rw [if_neg he1] at h
      cases h

/-- What a finite token of the core parse says about its pieces. -/
theorem pyTokCore_num_inv {neg ng : Bool} {u ds1 ds2 : Str} {e : ℤ}
    (h : pyTokCore neg u = some (.num ng ds1 ds2 e)) :
    ng = neg ∧ ds1 = u.takeWhile Char.isDigit ∧ ds2 = (fracSplit (u.dropWhile Char.isDigit)).1 ∧
    ¬(u.takeWhile Char.isDigit = [] ∧ (fracSplit (u.dropWhile Char.isDigit)).1 = []) ∧
    parseExp (fracSplit (u.dropWhile Char.isDigit)).2 = some e := by
  rw [pyTokCore] at h
  split at h
  · simp at h
  split at h
  · simp at h
  split at h
  · simp at h
  · rename_i hguard
    cases hpe : parseExp (fracSplit (u.dropWhile Char.isDigit)).2 with
    | none => rw [hpe] at h; cases h
    | some e2 =>
      rw [hpe] at h
      obtain ⟨h1, h2, h3, h4⟩ := PyTok.num.injEq .. ▸ (Option.some.injEq .. ▸ h)
      exact ⟨h1.symm, h2.symm, h3.symm, hguard, by rw [h4]⟩

/-- A body that parses to a finite token, followed by blanks and one
non-blank, non-digit character other than the decimal point, no longer
parses. -/
theorem pyTokCore_concat_none {neg ng neg2 : Bool} {u ds1x ds2x w : Str} {e : ℤ} {c : Char}
    (h : pyTokCore neg u = some (.num ng ds1x ds2x e))
    (hw : ∀ x ∈ w, x.isWhitespace = true)
    (hcd : c.isDigit = false) (hcdot : c ≠ '.') :
    pyTokCore neg2 (u ++ (w ++ [c])) = none := by
  obtain ⟨-, -, -, hguard, hexp⟩ := pyTokCore_num_inv h
  obtain ⟨d, hdu, hdd⟩ := pyTokCore_num_digit h
  have hU : u ++ (w ++ [c]) =
      u.takeWhile Char.isDigit ++ (u.dropWhile Char.isDigit ++ (w ++ [c])) := by
    conv_rhs => rw [← List.append_assoc, List.takeWhile_append_dropWhile]
  have hresid : ∀ x rest, u.dropWhile Char.isDigit = x :: rest → x.isDigit = false :=
    fun x rest hx => dropWhile_head_false hx
  have hall : ∀ x ∈ u.takeWhile Char.isDigit, Char.isDigit x = true :=
    fun x hx => List.mem_takeWhile_imp hx
  have htw : (u ++ (w ++ [c])).takeWhile Char.isDigit = u.takeWhile Char.isDigit := by
    rw [hU, takeWhile_append_all hall, (digit_scan_concat hresid hw hcd).1, List.append_nil]
  have hdw : (u ++ (w ++ [c])).dropWhile Char.isDigit = u.dropWhile Char.isDigit ++ (w ++ [c]) := by
    rw [hU, dropWhile_append_all hall, (digit_scan_concat hresid hw hcd).2]
  have hfs : fracSplit ((u ++ (w ++ [c])).dropWhile Char.isDigit) =
      ((fracSplit (u.dropWhile Char.isDigit)).1,
        (fracSplit (u.dropWhile Char.isDigit)).2 ++ (w ++ [c])) := by
    rw [hdw]
    exact fracSplit_concat hresid hw hcd hcdot
  have hdU : d ∈ u ++ (w ++ [c]) := by simp [hdu]
  have hni : ¬((u ++ (w ++ [c])).map Char.toLower = infChars ∨
      (u ++ (w ++ [c])).map Char.toLower = infinityChars) := by
    push_neg
    exact ⟨map_toLower_ne hdU hdd (by decide), map_toLower_ne hdU hdd (by decide)⟩
  have hnn : (u ++ (w ++ [c])).map Char.toLower ≠ nanChars :=
    map_toLower_ne hdU hdd (by decide)
  have hguard2 : ¬((u ++ (w ++ [c])).takeWhile Char.isDigit = [] ∧
      (fracSplit ((u ++ (w ++ [c])).dropWhile Char.isDigit)).1 = []) := by
    rw [htw, hfs]
    exact hguard
  rw [pyTokCore, if_neg hni, if_neg hnn, if_neg hguard2, hfs]
  rw [parseExp_concat_none hexp hw hcd]

/-- Characters of a parseable exponent: digits, the markers and signs. -/
theorem parseExp_chars {r : Str} {e : ℤ} (h : parseExp r = some e) :
    ∀ x ∈ r, x.isDigit = true ∨ x ∈ ['+', '-', '.', 'e', 'E'] := by
  cases r with
  | nil => intro x hx; cases hx
  | cons e1 t2 =>
    rw [parseExp] at h
    by_cases he1 : e1 = 'e' ∨ e1 = 'E'
    · rw [if_pos he1] at h
      split at h
      · cases h
      · rename_i hcond
        push_neg at hcond
        obtain ⟨hds3, hr3⟩ := hcond
        intro x hx
        rcases List.mem_cons.1 hx with rfl | hxt
        · rcases he1 with rfl | rfl <;> exact Or.inr (by simp)
        · cases t2 with
          | nil => cases hxt
          | cons s0 t3 =>
            by_cases h1 : s0 = '+'
            · rw [show takeSign (s0 :: t3) = (false, t3) from by rw [takeSign, if_pos h1]] at hr3
              rcases List.mem_cons.1 hxt with rfl | hx3
              · exact Or.inr (by simp [h1])
              · exact Or.inl (List.dropWhile_eq_nil_iff.1 hr3 x hx3)
            · by_cases h2 : s0 = '-'
              · rw [show takeSign (s0 :: t3) = (true, t3) from by
                  rw [takeSign, if_neg h1, if_pos h2]] at hr3
                rcases List.mem_cons.1 hxt with rfl | hx3
                · exact Or.inr (by simp [h2])
                · exact Or.inl (List.dropWhile_eq_nil_iff.1 hr3 x hx3)
              · rw [show takeSign (s0 :: t3) = (false, s0 :: t3) from by
                  rw [takeSign, if_neg h1, if_neg h2]] at hr3
                exact Or.inl (List.dropWhile_eq_nil_iff.1 hr3 x hxt)
    · rw [if_neg he1] at h
      cases h

/-- Characters of a parseable core body: digits, the decimal point, the
exponent markers and signs. -/
theorem pyTokCore_num_charset {neg ng : Bool} {u ds1 ds2 : Str} {e : ℤ}
    (h : pyTokCore neg u = some (.num ng ds1 ds2 e)) :
    ∀ x ∈ u, x.isDigit = true ∨ x ∈ ['+', '-', '.', 'e', 'E'] := by
  obtain ⟨-, -, -, -, hexp⟩ := pyTokCore_num_inv h
  intro x hx
  have hu : u = u.takeWhile Char.isDigit ++ u.dropWhile Char.isDigit :=
    (List.takeWhile_append_dropWhile _ _).symm
  rw [hu] at hx
  rcases List.mem_append.1 hx with h1 | h2
  · exact Or.inl (List.mem_takeWhile_imp h1)
  · cases hr1 : u.dropWhile Char.isDigit with
    | nil => rw [hr1] at h2; cases h2
    | cons h1c t1 =>
      rw [hr1] at h2 hexp
      by_cases hdot : h1c = '.'
      · subst hdot
        rw [fracSplit, if_pos rfl] at hexp
        rcases List.mem_cons.1 h2 with rfl | h3
        · exact Or.inr (by simp)
        · have ht1 : t1 = t1.takeWhile Char.isDigit ++ t1.dropWhile Char.isDigit :=
            (List.takeWhile_append_dropWhile _ _).symm
          rw [ht1] at h3
          rcases List.mem_append.1 h3 with h4 | h5
          · exact Or.inl (List.mem_takeWhile_imp h4)
          · exact parseExp_chars hexp x h5
      · rw [fracSplit, if_neg hdot] at hexp
        exact parseExp_chars hexp x h2

/-- Characters of a string `float()` parses to a finite value: blanks,
digits, the decimal point, the exponent markers and signs. -/
theorem pyFloatTok_num_charset {v : Str} {ng : Bool} {ds1 ds2 : Str} {e : ℤ}
    (h : pyFloatTok v = some (.num ng ds1 ds2 e)) :
    ∀ x ∈ v, x.isWhitespace = true ∨ x.isDigit = true ∨ x ∈ ['+', '-', '.', 'e', 'E'] := by
  rw [pyFloatTok] at h
  obtain ⟨neg, u, hts⟩ : ∃ neg u, takeSign (trimWs v) = (neg, u) := ⟨_, _, rfl⟩
  rw [hts] at h
  have hcore := pyTokCore_num_charset h
  intro x hx
  obtain ⟨w2, hw2, hw2all⟩ := trimRight_decomp (trimLeft v)
  have hv : v = v.takeWhile Char.isWhitespace ++ trimLeft v := by
    conv_lhs => rw [← List.takeWhile_append_dropWhile Char.isWhitespace v]
    rfl
  rw [hv] at hx
  rcases List.mem_append.1 hx with hws | hrest
  · exact Or.inl (List.mem_takeWhile_imp hws)
  · rw [hw2] at hrest
    rcases List.mem_append.1 hrest with htr | hw2m
    · have hxt : x ∈ trimWs v := htr
      cases htv : trimWs v with
      | nil => rw [htv] at hxt; cases hxt
      | cons c0 t0 =>
        rw [htv] at hxt hts
        rw [takeSign] at hts
        by_cases h1 : c0 = '+'
        · rw [if_pos h1] at hts
          obtain ⟨-, hu⟩ := Prod.mk.injEq .. ▸ hts
          rcases List.mem_cons.1 hxt with rfl | hx0
          · exact Or.inr (Or.inr (by simp [h1]))
          · exact Or.inr (hcore x (hu ▸ hx0))
        · rw [if_neg h1] at hts
          by_cases h2 : c0 = '-'
          · rw [if_pos h2] at hts
            obtain ⟨-, hu⟩ := Prod.mk.injEq .. ▸ hts
            rcases List.mem_cons.1 hxt with rfl | hx0
            · exact Or.inr (Or.inr (by simp [h2]))
            · exact Or.inr (hcore x (hu ▸ hx0))
          · rw [if_neg h2] at hts
            obtain ⟨-, hu⟩ := Prod.mk.injEq .. ▸ hts
            exact Or.inr (hcore x (hu ▸ hxt))
    · exact Or.inl (hw2all x hw2m)

/-- A string `float()` accepts as a finite literal no longer parses once a
non-blank, non-digit character other than the decimal point is appended. -/
theorem pyFloatTok_concat_none {lit : Str} {ng : Bool} {ds1 ds2 : Str} {e : ℤ} {c : Char}
    (h : pyFloatTok lit = some (.num ng ds1 ds2 e))
    (hcw : c.isWhitespace = false) (hcd : c.isDigit = false) (hcdot : c ≠ '.') :
    pyFloatTok (lit ++ [c]) = none := by
  rw [pyFloatTok] at h
  obtain ⟨neg, u, hts⟩ : ∃ neg u, takeSign (trimWs lit) = (neg, u) := ⟨_, _, rfl⟩
  rw [hts] at h
  obtain ⟨d, hdu, hdd⟩ := pyTokCore_num_digit h
  have hune : u ≠ [] := by
    intro h0
    rw [h0] at hdu
    cases hdu
  have htne : trimWs lit ≠ [] := by
    intro h0
    rw [h0] at hts
    have hu0 : u = [] := by
      have h2 := Prod.mk.injEq .. ▸ hts
      exact h2.2.symm
    exact hune hu0
  have hlne : trimLeft lit ≠ [] := by
    intro h0
    apply htne
    rw [trimWs, h0]
    rfl
  obtain ⟨w, hcat, hwall⟩ := trimWs_concat hlne hcw
  have hcat2 : trimWs (lit ++ [c]) = trimWs lit ++ (w ++ [c]) := by
    rw [hcat, List.append_assoc]
  rw [pyFloatTok, hcat2, takeSign_append hts htne]
  exact pyTokCore_concat_none h hwall hcd hcdot

/-- A suffix ending in `b` of a list ending in `c` forces `b = c` and pushes
the rest of the suffix into the front list. -/
theorem suffix_concat_split {ys l : Str} {b c : Char} (h : ys ++ [b] <:+ l ++ [c]) :
    b = c ∧ ys <:+ l := by
  obtain ⟨t, ht⟩ := h
  have ht2 : (t ++ ys) ++ [b] = l ++ [c] := by
    rw [List.append_assoc]
    exact ht
  obtain ⟨h1, h2⟩ := List.append_inj' ht2 rfl
  exact ⟨(List.cons.injEq .. ▸ h2).1, ⟨t, h1⟩⟩

/-- A one-character suffix of a list ending in `c` is that character. -/
theorem single_suffix_concat {a c : Char} {l : Str} (h : [a] <:+ l ++ [c]) : a = c :=
  (suffix_concat_split (show ([] : Str) ++ [a] <:+ l ++ [c] from h)).1

/-- Appending a non-unit character to a float literal leaves no unit symbol
as a suffix. -/
theorem findUnit_concat_none {lit : Str} {c : Char}
    (hchar : ∀ x ∈ lit, x.isWhitespace = true ∨ x.isDigit = true ∨ x ∈ ['+', '-', '.', 'e', 'E'])
    (hc : [c] ∉ units.map Prod.fst) :
    findUnit units (lit ++ [c]) = none := by
  apply findUnit_eq_none
  intro p hp hsuf
  have hchar2 : ∀ y : Char, y ∈ lit → y = 'h' ∨ y = 'H' → False := by
    rintro y hy (rfl | rfl) <;>
      rcases hchar _ hy with h1 | h1 | h1 <;> exact absurd h1 (by decide)
  fin_cases hp
  · exact hc (by rw [← single_suffix_concat hsuf]; decide)
  · exact hc (by rw [← single_suffix_concat hsuf]; decide)
  · exact hc (by rw [← single_suffix_concat hsuf]; decide)
  · obtain ⟨-, hsuf2⟩ := suffix_concat_split
      (show ['o', 'h'] ++ ['m'] <:+ lit ++ [c] from hsuf)
    exact hchar2 'h' (hsuf2.subset (by simp)) (Or.inl rfl)
  · exact hc (by rw [← single_suffix_concat hsuf]; decide)
  · exact hc (by rw [← single_suffix_concat hsuf]; decide)
  · exact hc (by rw [← single_suffix_concat hsuf]; decide)
  · exact hc (by rw [← single_suffix_concat hsuf]; decide)
  · exact hc (by rw [← single_suffix_concat hsuf]; decide)
  · obtain ⟨-, hsuf2⟩ := suffix_concat_split
      (show ['H'] ++ ['z'] <:+ lit ++ [c] from hsuf)
    exact hchar2 'H' (hsuf2.subset (by simp)) (Or.inr rfl)
  · exact hc (by rw [← single_suffix_concat hsuf]; decide)
  · exact hc (by rw [← single_suffix_concat hsuf]; decide)

/-- Core of C5 as amended: a finite float literal followed by one character
that is no unit symbol and looks up in the prefix table parses as the
literal scaled by that key's multiplier, with no unit. -/
theorem valueParser_concat_key {lit : Str} {c : Char} {e : ℤ} {ng : Bool} {ds1 ds2 : Str}
    {ex : ℤ} (hlit : pyFloatTok lit = some (.num ng ds1 ds2 ex))
    (hcw : c.isWhitespace = false) (hcd : c.isDigit = false) (hcdot : c ≠ '.')
    (hcu : [c] ∉ units.map Prod.fst)
    (hlook : lookupTab prefixes [c] = some e) :
    valueParser (lit ++ [c]) = .ok ((tokVal (.num ng ds1 ds2 ex)).scaleE e) none := by
  have hfast : pyFloatTok (lit ++ [c]) = none := pyFloatTok_concat_none hlit hcw hcd hcdot
  have hstrip : stripUnit (lit ++ [c]) = (none, lit ++ [c]) := by
    rw [stripUnit, findUnit_concat_none (pyFloatTok_num_charset hlit) hcu]
  have hlast : (lit ++ [c]).getLast? = some c := List.getLast?_concat _
  simp only [valueParser, valueParserT, hfast, hstrip, hlast, hlook, List.dropLast_concat, hlit]
  rfl

/-- C5 as amended: every single-character key of the prefix table acts as a
trailing SI prefix after any finite numeric literal — the result is the
literal times the key's multiplier, with no unit — while the multi-character
aliases MEG/Meg never do (only the last character is consulted). Concretely
"3K" parses to 3000 and "10u"/"10µ" to 1e-5. -/
theorem claim5_single_char_trailing :
    (∀ (c : Char) (e : ℤ), ([c], e) ∈ prefixes →
      ∀ (lit : Str) (ng : Bool) (ds1 ds2 : Str) (ex : ℤ),
        pyFloatTok lit = some (.num ng ds1 ds2 ex) →
        valueParser (lit ++ [c]) = .ok ((tokVal (.num ng ds1 ds2 ex)).scaleE e) none) ∧
    valueParser (chars "3K") = .ok (.num 3000) none ∧
    valueParser (chars "10u") = .ok (.num (1 / 100000)) none ∧
    valueParser ('1' :: '0' :: [microSign]) = .ok (.num (1 / 100000)) none := by
  refine ⟨?_, ?_, ?_, ?_⟩
  · intro c e hmem lit ng ds1 ds2 ex hlit
    have htab1 : ∀ p ∈ prefixes, ∀ x ∈ (p : Str × ℤ).1,
        x.isWhitespace = false ∧ x.isDigit = false ∧ x ≠ '.' := by decide
    have htab2 : ∀ p ∈ prefixes, (p : Str × ℤ).1.length = 1 →
        p.1 ∉ units.map Prod.fst ∧ lookupTab prefixes p.1 = some p.2 := by decide
    obtain ⟨hcw, hcd, hcdot⟩ := htab1 ([c], e) hmem c (by simp)
    obtain ⟨hcu, hlook⟩ := htab2 ([c], e) hmem (by simp)
    exact valueParser_concat_key hlit hcw hcd hcdot hcu hlook
  · rw [valueParser,
      show valueParserT (chars "3K") = .ok (.num false ['3'] [] 0) 3 none from by decide]
    rw [interp, tokVal, PyLit.scaleE]
    norm_num [applySign, pow10, show digitsVal ['3'] = 3 from by decide,
      show digitsVal ([] : Str) = 0 from rfl]
  · rw [valueParser,
      show valueParserT (chars "10u") = .ok (.num false (chars "10") [] 0) (-6) none
        from by decide]
    rw [interp, tokVal, PyLit.scaleE]
    rw [show pow10 (-6) = 1 / 10 ^ 6 from rfl]
    norm_num [applySign, pow10, show digitsVal (chars "10") = 10 from by decide,
      show digitsVal ([] : Str) = 0 from rfl]
  · rw [valueParser,
      show valueParserT ('1' :: '0' :: [microSign]) = .ok (.num false (chars "10") [] 0) (-6) none
        from by decide]
    rw [interp, tokVal, PyLit.scaleE]
    rw [show pow10 (-6) = 1 / 10 ^ 6 from rfl]
    norm_num [applySign, pow10, show digitsVal (chars "10") = 10 from by decide,
      show digitsVal ([] : Str) = 0 from rfl]

/-- Witness for C5: the trailing-prefix law applied at the literal "3" and
the key 'k'. -/
theorem claim5_witness :
    valueParser (chars "3" ++ ['k']) = .ok ((tokVal (.num false ['3'] [] 0)).scaleE 3) none :=
  claim5_single_char_trailing.1 'k' 3 (by decide) (chars "3") false ['3'] [] 0 (by decide)
